import Mathlib

/-!
Verification of the Morton-order matrix (`03-Morton/step3/matrix.hpp`).

The matrix stores a rank×rank square of elements in a flat buffer addressed
by the Morton (Z-order) codec: `encode` interleaves the bits of the two
coordinates (x in the even bit positions, y in the odd ones) and `pack`
extracts every other bit of a linear offset, recovering a coordinate.
`matrix.hpp` includes the codec from `bits.hpp`, which is not part of the
sources at hand, so `encode` and `pack` are modelled from the specification;
everything else is translated directly from `matrix.hpp`.

Machine integers are modelled as `Nat` with explicit reduction modulo
`2 ^ 32` (for `uint32_t` arithmetic) or `2 ^ 64` (for `uint64_t`) at the
points where the C++ arithmetic can wrap.  The recursive bit-manipulating
functions are written with an explicit fuel argument (structural recursion)
so that they evaluate inside the kernel; fuel-independence lemmas recover
the natural defining equations.
-/

namespace Morton

/-- Modelled from the spec: one step of `pack` with explicit fuel.
`pack` (from the missing `bits.hpp`) extracts every even-positioned bit of
its argument and compacts them into a dense integer. -/
def packAux : Nat → Nat → Nat
  | 0, _ => 0
  | f + 1, z => if z = 0 then 0 else z % 2 + 2 * packAux f (z / 4)

/-- Modelled from the spec: `pack` extracts the even bits of `z`
(bit `2k` of `z` becomes bit `k` of the result). -/
def pack (z : Nat) : Nat :=
  packAux z z

/-- Modelled from the spec: one step of `encode` with explicit fuel. -/
def encodeAux : Nat → Nat → Nat → Nat
  | 0, _, _ => 0
  | f + 1, x, y =>
    if x = 0 ∧ y = 0 then 0
    else x % 2 + 2 * (y % 2) + 4 * encodeAux f (x / 2) (y / 2)

/-- Modelled from the spec: `encode x y` interleaves the bits of `x` and
`y` so that bit `2k` of the result is bit `k` of `x` and bit `2k+1` of the
result is bit `k` of `y`. -/
def encode (x y : Nat) : Nat :=
  encodeAux (x + y) x y

/-- Bitwise AND of two machine words, modelled bit by bit with fuel; the
first argument is the word width.  `land32 32 a b` models the C `a & b`
on `uint32_t` operands. -/
def land32 : Nat → Nat → Nat → Nat
  | 0, _, _ => 0
  | f + 1, a, b => a % 2 * (b % 2) + 2 * land32 f (a / 2) (b / 2)

/-- The condition checked by `assert((r & (r-1)) == 0)` in the sized
constructor: `r - 1` is computed in `uint32_t` arithmetic (so `0 - 1`
wraps to `2^32 - 1`). -/
def assertOK (r : Nat) : Prop :=
  land32 32 r ((r + (2 ^ 32 - 1)) % 2 ^ 32) = 0

instance (r : Nat) : Decidable (assertOK r) := by
  unfold assertOK; infer_instance

/-- The number of elements actually allocated by `new T[r*r]`: the product
is computed in `uint32_t` arithmetic and therefore wraps modulo `2^32`. -/
def allocLen (r : Nat) : Nat :=
  r * r % 2 ^ 32

/-- The iterator over a matrix buffer (`matrix_iterator` in the source):
it is a pointer pair `(_start, _ptr)` into the buffer, modelled by the
offset `pos = _ptr - _start`. -/
structure matrix_iterator where
  pos : Nat
  deriving DecidableEq

namespace matrix_iterator

/-- `x()`: `auto z = _ptr - _start; return pack(z);` -/
def x (it : matrix_iterator) : Nat :=
  pack it.pos

/-- `y()`: `auto z = _ptr - _start; return pack(z >> 1);` -/
def y (it : matrix_iterator) : Nat :=
  pack (it.pos >>> 1)

/-- Preincrement `operator++`: `++_ptr`. -/
def inc (it : matrix_iterator) : matrix_iterator :=
  ⟨it.pos + 1⟩

/-- Predecrement `operator--`: `--_ptr`. -/
def dec (it : matrix_iterator) : matrix_iterator :=
  ⟨it.pos - 1⟩

end matrix_iterator

/-- The Morton-order matrix (`matrix<T>` in the source): a rank together
with the owned buffer.  `buffer = none` models a null `unique_ptr`
(default-constructed or moved-from); `buffer = some b` models an owned
allocation holding the list `b`. -/
structure MMatrix (α : Type) where
  rank : Nat
  buffer : Option (List α)

namespace MMatrix

/-- The default constructor `matrix() : _rank(0)`: rank 0, null buffer. -/
def empty (α : Type) : MMatrix α :=
  ⟨0, none⟩

/-- The sized constructor `matrix(uint32_t r) : _rank(r), _data(new T[r*r])`.
The freshly allocated elements of `new T[r*r]` are indeterminate for
trivial `T`, which is modelled by taking an arbitrary initialisation
function `init` for the allocated cells. -/
def construct (r : Nat) (init : Nat → α) : MMatrix α :=
  ⟨r, some ((List.range (allocLen r)).map init)⟩

/-- `size()`: `uint64_t(_rank) * uint64_t(_rank)`, a `uint64_t` product. -/
def size (m : MMatrix α) : Nat :=
  m.rank * m.rank % 2 ^ 64

/-- Element read `operator()(i, j) const`: `_data[encode(i, j)]`.
Reading from a null buffer or past the allocation has no defined value in
the C++ source; the model returns `none` there. -/
def get (m : MMatrix α) (i j : Nat) : Option α :=
  m.buffer.bind fun b => b.get? (encode i j)

/-- Element write through `operator()(i, j)`: `_data[encode(i, j)] = v`.
A write through a null buffer or past the allocation is undefined in the
C++ source; the model leaves the state unchanged there. -/
def set (m : MMatrix α) (i j : Nat) (v : α) : MMatrix α :=
  ⟨m.rank, m.buffer.map fun b => b.set (encode i j) v⟩

/-- `data()[n]`: the raw buffer cell at linear offset `n`. -/
def dataIdx (m : MMatrix α) (n : Nat) : Option α :=
  m.buffer.bind fun b => b.get? n

/-- `duplicate()`: builds `matrix ans(_rank)` and copies the buffer
contents across (`std::copy(begin(), end(), ans.begin())`). -/
def duplicate (m : MMatrix α) : MMatrix α :=
  ⟨m.rank, some (m.buffer.getD [])⟩

/-- Moving out of a matrix (`matrix(matrix&&)` / move assignment, both
`= default`): the target receives the rank and the buffer; the defaulted
member-wise move copies `_rank` (a `uint32_t`, left unchanged in the
source object) and transfers the `unique_ptr` (leaving it null).  The
first component is the moved-from source, the second the target. -/
def moveOut (m : MMatrix α) : MMatrix α × MMatrix α :=
  (⟨m.rank, none⟩, m)

/-- `begin()`: an iterator at offset 0. -/
def mbegin (_m : MMatrix α) : matrix_iterator :=
  ⟨0⟩

/-- `end()`: an iterator at offset `size()`. -/
def mend (m : MMatrix α) : matrix_iterator :=
  ⟨m.size⟩

end MMatrix

/-- The `(x(), y())` pairs reported by the iterator at the successive
buffer offsets `0, 1, ..., r*r - 1` visited between `begin()` and
`end()` of a rank-`r` matrix. -/
def mortonPairs (r : Nat) : List (Nat × Nat) :=
  (List.range (r * r)).map fun z =>
    ((matrix_iterator.mk z).x, (matrix_iterator.mk z).y)

/-! ### Basic facts about the codec -/

theorem packAux_zero (f : Nat) : packAux f 0 = 0 := by
  cases f <;> simp [packAux]

theorem packAux_fuel (f : Nat) :
    ∀ z g, z ≤ f → z ≤ g → packAux f z = packAux g z := by
  induction f with
  | zero =>
    intro z g hf _
    have hz : z = 0 := Nat.le_zero.mp hf
    subst hz
    rw [packAux_zero, packAux_zero]
  | succ f ih =>
    intro z g hf hg
    cases g with
    | zero =>
      have hz : z = 0 := Nat.le_zero.mp hg
      subst hz
      rw [packAux_zero, packAux_zero]
    | succ g =>
      by_cases hz : z = 0
      · subst hz
        rw [packAux_zero, packAux_zero]
      · simp only [packAux, hz, if_false]
        have := ih (z / 4) g (by omega) (by omega)
        omega

/-- The defining recurrence of `pack`, free of the fuel argument. -/
theorem pack_def (z : Nat) : pack z = z % 2 + 2 * pack (z / 4) := by
  cases z with
  | zero => simp [pack, packAux]
  | succ n =>
    show packAux (n + 1) (n + 1) = _
    simp only [packAux, Nat.succ_ne_zero, if_false]
    rw [packAux_fuel n ((n + 1) / 4) ((n + 1) / 4) (by omega) le_rfl]
    rfl

theorem encodeAux_zero (f : Nat) : encodeAux f 0 0 = 0 := by
  cases f <;> simp [encodeAux]

theorem encodeAux_fuel (f : Nat) :
    ∀ x y g, x + y ≤ f → x + y ≤ g → encodeAux f x y = encodeAux g x y := by
  induction f with
  | zero =>
    intro x y g hf _
    have hx : x = 0 := by omega
    have hy : y = 0 := by omega
    subst hx; subst hy
    rw [encodeAux_zero, encodeAux_zero]
  | succ f ih =>
    intro x y g hf hg
    cases g with
    | zero =>
      have hx : x = 0 := by omega
      have hy : y = 0 := by omega
      subst hx; subst hy
      rw [encodeAux_zero, encodeAux_zero]
    | succ g =>
      by_cases h0 : x = 0 ∧ y = 0
      · obtain ⟨hx, hy⟩ := h0
        subst hx; subst hy
        rw [encodeAux_zero, encodeAux_zero]
      · simp only [encodeAux, h0, if_false]
        have := ih (x / 2) (y / 2) g (by omega) (by omega)
        omega

/-- The defining recurrence of `encode`, free of the fuel argument. -/
theorem encode_def (x y : Nat) :
    encode x y = x % 2 + 2 * (y % 2) + 4 * encode (x / 2) (y / 2) := by
  by_cases h0 : x = 0 ∧ y = 0
  · obtain ⟨hx, hy⟩ := h0
    subst hx; subst hy
    simp [encode, encodeAux_zero]
  · obtain ⟨n, hn⟩ : ∃ n, x + y = n + 1 := ⟨x + y - 1, by omega⟩
    show encodeAux (x + y) x y = _
    rw [hn]
    simp only [encodeAux, h0, if_false]
    rw [encodeAux_fuel n (x / 2) (y / 2) (x / 2 + y / 2) (by omega) le_rfl]
    rfl

theorem pack_encode (n : Nat) :
    ∀ x y, x + y ≤ n → pack (encode x y) = x := by
  induction n with
  | zero =>
    intro x y h
    have hx : x = 0 := by omega
    have hy : y = 0 := by omega
    subst hx; subst hy
    rfl
  | succ n ih =>
    intro x y h
    by_cases h0 : x = 0 ∧ y = 0
    · obtain ⟨hx, hy⟩ := h0
      subst hx; subst hy
      rfl
    · rw [encode_def, pack_def]
      have e2 : (x % 2 + 2 * (y % 2) + 4 * encode (x / 2) (y / 2)) % 2 = x % 2 := by
        omega
      have e4 : (x % 2 + 2 * (y % 2) + 4 * encode (x / 2) (y / 2)) / 4 =
          encode (x / 2) (y / 2) := by
        omega
      rw [e2, e4, ih (x / 2) (y / 2) (by omega)]
      omega

theorem encode_swap (n : Nat) :
    ∀ x y, x + y ≤ n → encode x y = x % 2 + 2 * encode y (x / 2) := by
  induction n with
  | zero =>
    intro x y h
    have hx : x = 0 := by omega
    have hy : y = 0 := by omega
    subst hx; subst hy
    rfl
  | succ n ih =>
    intro x y h
    by_cases h0 : x = 0 ∧ y = 0
    · obtain ⟨hx, hy⟩ := h0
      subst hx; subst hy
      rfl
    · rw [encode_def x y, encode_def y (x / 2),
        ih (x / 2) (y / 2) (by omega)]
      omega

theorem pack_encode_shift (x y : Nat) : pack (encode x y / 2) = y := by
  have h := encode_swap (x + y) x y le_rfl
  have h2 : encode x y / 2 = encode y (x / 2) := by omega
  rw [h2, pack_encode (y + x / 2) y (x / 2) le_rfl]

theorem encode_pack (n : Nat) :
    ∀ z, z ≤ n → encode (pack z) (pack (z / 2)) = z := by
  induction n with
  | zero =>
    intro z h
    have hz : z = 0 := Nat.le_zero.mp h
    subst hz
    rfl
  | succ n ih =>
    intro z h
    by_cases hz : z = 0
    · subst hz
      rfl
    · have hp1 := pack_def z
      have hp2 := pack_def (z / 2)
      have e1 : pack z % 2 = z % 2 := by omega
      have e2 : pack z / 2 = pack (z / 4) := by omega
      have e3 : pack (z / 2) % 2 = z / 2 % 2 := by omega
      have e4 : pack (z / 2) / 2 = pack (z / 2 / 4) := by omega
      have e5 : z / 2 / 4 = z / 4 / 2 := by omega
      have ihz := ih (z / 4) (by omega)
      rw [encode_def, e1, e2, e3, e4, e5, ihz]
      omega

theorem encode_lt (k : Nat) :
    ∀ x y, x < 2 ^ k → y < 2 ^ k → encode x y < 2 ^ k * 2 ^ k := by
  induction k with
  | zero =>
    intro x y hx hy
    have hx0 : x = 0 := by omega
    have hy0 : y = 0 := by omega
    subst hx0; subst hy0
    show encode 0 0 < 1
    decide
  | succ k ih =>
    intro x y hx hy
    have hpow : (2 : Nat) ^ (k + 1) = 2 * 2 ^ k := by ring
    have hE := ih (x / 2) (y / 2) (by omega) (by omega)
    have hgoal : (2 : Nat) ^ (k + 1) * 2 ^ (k + 1) = 4 * (2 ^ k * 2 ^ k) := by ring
    rw [encode_def]
    omega

theorem pack_lt (k : Nat) :
    ∀ z, z < 2 ^ k * 2 ^ k → pack z < 2 ^ k := by
  induction k with
  | zero =>
    intro z hz
    have hz0 : z = 0 := by omega
    subst hz0
    show pack 0 < 1
    decide
  | succ k ih =>
    intro z hz
    have hpow : (2 : Nat) ^ (k + 1) = 2 * 2 ^ k := by ring
    have hgoal : (2 : Nat) ^ (k + 1) * 2 ^ (k + 1) = 4 * (2 ^ k * 2 ^ k) := by ring
    have hp := ih (z / 4) (by omega)
    have := pack_def z
    omega

/-! ### The power-of-two assertion -/

theorem land32_zero_left (f : Nat) : ∀ b, land32 f 0 b = 0 := by
  induction f with
  | zero => intro b; rfl
  | succ f ih =>
    intro b
    show 0 % 2 * (b % 2) + 2 * land32 f (0 / 2) (b / 2) = 0
    rw [show (0 : Nat) / 2 = 0 from rfl, ih (b / 2)]
    omega

theorem land32_self (f : Nat) : ∀ a, a < 2 ^ f → land32 f a a = a := by
  induction f with
  | zero =>
    intro a ha
    have : a = 0 := by omega
    subst this
    rfl
  | succ f ih =>
    intro a ha
    have hpow : (2 : Nat) ^ (f + 1) = 2 * 2 ^ f := by ring
    have hrec := ih (a / 2) (by omega)
    show a % 2 * (a % 2) + 2 * land32 f (a / 2) (a / 2) = a
    rw [hrec]
    have h2 : a % 2 = 0 ∨ a % 2 = 1 := by omega
    rcases h2 with h2 | h2 <;> rw [h2] <;> omega

/-- For a positive word `a`, `a & (a - 1) == 0` holds exactly when `a` is
a power of two. -/
theorem land_pred_eq_zero_iff (f : Nat) :
    ∀ a, 0 < a → a < 2 ^ f → (land32 f a (a - 1) = 0 ↔ ∃ k, a = 2 ^ k) := by
  induction f with
  | zero =>
    intro a ha h
    omega
  | succ f ih =>
    intro a ha h
    have hpow : (2 : Nat) ^ (f + 1) = 2 * 2 ^ f := by ring
    have h2 : a % 2 = 0 ∨ a % 2 = 1 := by omega
    rcases h2 with h2 | h2
    · -- a is even, a ≥ 2: recurse on a / 2
      have hm : 0 < a / 2 := by omega
      have hm2 : a / 2 < 2 ^ f := by omega
      have hstep : land32 (f + 1) a (a - 1) = 2 * land32 f (a / 2) (a / 2 - 1) := by
        show a % 2 * ((a - 1) % 2) + 2 * land32 f (a / 2) ((a - 1) / 2) =
          2 * land32 f (a / 2) (a / 2 - 1)
        have d1 : (a - 1) / 2 = a / 2 - 1 := by omega
        rw [d1, h2]
        omega
      rw [hstep]
      rw [show (2 * land32 f (a / 2) (a / 2 - 1) = 0) ↔
          (land32 f (a / 2) (a / 2 - 1) = 0) by omega]
      rw [ih (a / 2) hm hm2]
      constructor
      · rintro ⟨k, hk⟩
        refine ⟨k + 1, ?_⟩
        have : (2 : Nat) ^ (k + 1) = 2 * 2 ^ k := by ring
        omega
      · rintro ⟨k, hk⟩
        cases k with
        | zero => omega
        | succ j =>
          refine ⟨j, ?_⟩
          have : (2 : Nat) ^ (j + 1) = 2 * 2 ^ j := by ring
          omega
    · -- a is odd
      by_cases h1 : a = 1
      · subst h1
        constructor
        · intro _; exact ⟨0, rfl⟩
        · intro _
          show 1 % 2 * (0 % 2) + 2 * land32 f (1 / 2) (0 / 2) = 0
          rw [land32_zero_left]
      · -- a odd, a ≥ 3: a & (a-1) has the bit 2*(a/2) ≠ 0, and a is no power
        have ha3 : 3 ≤ a := by omega
        have hstep : land32 (f + 1) a (a - 1) = 2 * land32 f (a / 2) (a / 2) := by
          show a % 2 * ((a - 1) % 2) + 2 * land32 f (a / 2) ((a - 1) / 2) =
            2 * land32 f (a / 2) (a / 2)
          have d1 : (a - 1) / 2 = a / 2 := by omega
          have d2 : (a - 1) % 2 = 0 := by omega
          rw [d1, d2]
          omega
        have hself := land32_self f (a / 2) (by omega)
        rw [hstep, hself]
        constructor
        · intro h0; omega
        · rintro ⟨k, hk⟩
          cases k with
          | zero => omega
          | succ j =>
            have : (2 : Nat) ^ (j + 1) = 2 * 2 ^ j := by ring
            omega

/-! ### Claim statements and theorems -/

/-- The completeness and bijection statement for a rank-`r` traversal:
iterating `begin()..end()` yields `r*r` positions whose `(x(), y())`
pairs enumerate `[0,r) × [0,r)` exactly once, and `encode` is a bijection
between `[0,r) × [0,r)` and the buffer offsets `[0, r*r)`. -/
def morton_complete (r : Nat) : Prop :=
  (mortonPairs r).length = r * r ∧
  (mortonPairs r).Nodup ∧
  (∀ p : Nat × Nat, p ∈ mortonPairs r ↔ p.1 < r ∧ p.2 < r) ∧
  (∀ x y, x < r → y < r → encode x y < r * r) ∧
  (∀ x₁ y₁ x₂ y₂, encode x₁ y₁ = encode x₂ y₂ → x₁ = x₂ ∧ y₁ = y₂) ∧
  (∀ z, z < r * r → ∃ x y, x < r ∧ y < r ∧ encode x y = z)

theorem iter_x_eq (z : Nat) : (matrix_iterator.mk z).x = pack z := rfl

theorem iter_y_eq (z : Nat) : (matrix_iterator.mk z).y = pack (z / 2) := by
  show pack (z >>> 1) = pack (z / 2)
  rw [Nat.shiftRight_one]

/-- Claim C1: for every rank `r = 2^k` and all coordinates `x, y < r`,
decoding the even bits of `encode x y` gives back `x` and decoding the odd
bits gives back `y`; an iterator at buffer offset `encode x y` therefore
reports `x() = x` and `y() = y`, so decode is the exact inverse of encode
on all valid coordinates. -/
theorem codec_roundtrip (k x y : Nat) (hx : x < 2 ^ k) (hy : y < 2 ^ k) :
    pack (encode x y) = x ∧ pack (encode x y / 2) = y ∧
    (matrix_iterator.mk (encode x y)).x = x ∧
    (matrix_iterator.mk (encode x y)).y = y := by
  refine ⟨pack_encode (x + y) x y le_rfl, pack_encode_shift x y, ?_, ?_⟩
  · rw [iter_x_eq]
    exact pack_encode (x + y) x y le_rfl
  · rw [iter_y_eq]
    exact pack_encode_shift x y

theorem codec_roundtrip_witness :
    ((1 : Nat) < 2 ^ 2 ∧ (2 : Nat) < 2 ^ 2) ∧
    (pack (encode 1 2) = 1 ∧ pack (encode 1 2 / 2) = 2 ∧
      (matrix_iterator.mk (encode 1 2)).x = 1 ∧
      (matrix_iterator.mk (encode 1 2)).y = 2) :=
  ⟨by decide, codec_roundtrip 2 1 2 (by decide) (by decide)⟩

/-- Claim C2: for every rank `r = 2^k`, the traversal from `begin()` to
`end()` visits exactly `r*r` offsets whose `(x(), y())` pairs are exactly
the Cartesian product `[0,r) × [0,r)`, each pair occurring once; `encode`
is a bijection between `[0,r) × [0,r)` and `[0, r*r)`. -/
theorem morton_iteration_complete (r : Nat) (h : ∃ k, r = 2 ^ k) :
    morton_complete r := by
  obtain ⟨k, hk⟩ := h
  subst hk
  have hinj : Function.Injective
      (fun z => ((matrix_iterator.mk z).x, (matrix_iterator.mk z).y)) := by
    intro a b hab
    simp only [Prod.mk.injEq, iter_x_eq, iter_y_eq] at hab
    have ha := encode_pack a a le_rfl
    have hb := encode_pack b b le_rfl
    rw [← ha, ← hb, hab.1, hab.2]
  refine ⟨by simp [mortonPairs], List.Nodup.map hinj (List.nodup_range _),
    ?_, ?_, ?_, ?_⟩
  · intro p
    constructor
    · intro hp
      obtain ⟨z, hz, hzp⟩ := List.mem_map.mp hp
      have hzr : z < 2 ^ k * 2 ^ k := List.mem_range.mp hz
      have h1 : (matrix_iterator.mk z).x < 2 ^ k := by
        rw [iter_x_eq]; exact pack_lt k z hzr
      have h2 : (matrix_iterator.mk z).y < 2 ^ k := by
        rw [iter_y_eq]; exact pack_lt k (z / 2) (by omega)
      rw [← hzp]
      exact ⟨h1, h2⟩
    · rintro ⟨h1, h2⟩
      refine List.mem_map.mpr ⟨encode p.1 p.2,
        List.mem_range.mpr (encode_lt k p.1 p.2 h1 h2), ?_⟩
      rw [iter_x_eq, iter_y_eq, pack_encode (p.1 + p.2) p.1 p.2 le_rfl,
        pack_encode_shift p.1 p.2]
  · intro x y hx hy
    exact encode_lt k x y hx hy
  · intro x₁ y₁ x₂ y₂ heq
    constructor
    · rw [← pack_encode (x₁ + y₁) x₁ y₁ le_rfl, heq,
        pack_encode (x₂ + y₂) x₂ y₂ le_rfl]
    · rw [← pack_encode_shift x₁ y₁, heq, pack_encode_shift x₂ y₂]
  · intro z hz
    exact ⟨pack z, pack (z / 2), pack_lt k z hz, pack_lt k (z / 2) (by omega),
      encode_pack z z le_rfl⟩

theorem morton_iteration_complete_witness : morton_complete 4 :=
  morton_iteration_complete 4 ⟨2, by norm_num⟩

/-- Claim C3: in a rank-4 matrix of integers, after writing 42 at
coordinates `(1,2)` the codec maps `(1,2)` to linear offset
`encode 1 2 = 9`, the raw buffer satisfies `data()[9] == 42`, and an
iterator advanced 9 steps from `begin()` reports `x() == 1` and
`y() == 2`. -/
theorem concrete_scenario_rank4 :
    encode 1 2 = 9 ∧
    ((MMatrix.construct 4 (fun _ => (0 : Int))).set 1 2 42).dataIdx 9 = some 42 ∧
    (matrix_iterator.inc^[9]
      ((MMatrix.construct 4 (fun _ => (0 : Int))).mbegin)).x = 1 ∧
    (matrix_iterator.inc^[9]
      ((MMatrix.construct 4 (fun _ => (0 : Int))).mbegin)).y = 2 := by
  decide

/-- Claim C4 counterexample: moving out of a rank-1 matrix leaves the
source with `rank() = 1`, not the claimed `rank() = 0`: the defaulted
move operations copy the `uint32_t` rank field instead of clearing it. -/
theorem move_source_rank_cex :
    ¬ (MMatrix.moveOut (MMatrix.construct 1 (fun _ => (0 : Nat)))).1.rank = 0 := by
  decide

/-- Claim C4 (amended): after moving matrix `a` into `b`, `b` is exactly
the old `a` (same rank, same buffer, hence all element values preserved at
the same coordinates); the moved-from `a` loses its buffer (null data
pointer) but keeps its old rank, so it is the empty matrix only when the
rank was 0. -/
theorem move_semantics_amended {α : Type} (a : MMatrix α) :
    a.moveOut.2 = a ∧ a.moveOut.1.rank = a.rank ∧ a.moveOut.1.buffer = none :=
  ⟨rfl, rfl, rfl⟩

/-- Claim C5: at rank `r = 65536` (a power of 2 accepted by the assertion)
the buffer allocation `new T[r*r]` computes `r*r` in `uint32_t` arithmetic
and wraps to 0, so the buffer holds 0 elements while `size()` returns the
mathematical product `2^32`; the buffer length does not equal `size()`. -/
theorem construct_overflow_rank65536 :
    assertOK 65536 ∧
    (MMatrix.construct 65536 (fun _ => (0 : Nat))).buffer = some [] ∧
    (MMatrix.construct 65536 (fun _ => (0 : Nat))).size = 4294967296 := by
  decide

/-- The buffer shape invariant of the matrix: a rank-0 matrix has a null
or empty buffer, and a positive-rank matrix owns a buffer of exactly the
allocated length `rank * rank` (computed in `uint32_t` arithmetic). -/
def BufferInv {α : Type} (m : MMatrix α) : Prop :=
  (m.rank = 0 → m.buffer = none ∨ m.buffer = some []) ∧
  (0 < m.rank → ∃ b, m.buffer = some b ∧ b.length = allocLen m.rank)

/-- The matrix states reachable by default construction, sized
construction (with the assertion passing), element writes, duplication
and receiving a move — every operation of the class except being the
source of a move-out. -/
inductive ReachableNM {α : Type} : MMatrix α → Prop where
  | empty : ReachableNM (MMatrix.empty α)
  | construct (r : Nat) (init : Nat → α) (hr : r < 2 ^ 32) (ha : assertOK r) :
      ReachableNM (MMatrix.construct r init)
  | set (m : MMatrix α) (i j : Nat) (v : α) :
      ReachableNM m → ReachableNM (m.set i j v)
  | dup (m : MMatrix α) : ReachableNM m → ReachableNM m.duplicate
  | moveTarget (m : MMatrix α) : ReachableNM m → ReachableNM m.moveOut.2

/-- Claim C6 counterexample: the state invariant fails on a reachable
state — after moving out of a rank-1 matrix, the source has `rank() = 1`
(positive) with a null buffer. -/
theorem move_breaks_buffer_cex :
    0 < (MMatrix.moveOut (MMatrix.construct 1 (fun _ => (0 : Nat)))).1.rank ∧
    (MMatrix.moveOut (MMatrix.construct 1 (fun _ => (0 : Nat)))).1.buffer = none := by
  decide

/-- Claim C6 (amended): every matrix state reachable by default
construction, accepted sized construction, element writes, duplication
and move targets satisfies the buffer invariant: null or empty buffer at
rank 0, and an owned buffer of the allocated length (`rank * rank` in
`uint32_t` arithmetic) at positive rank.  A moved-from source instead
keeps its positive rank with a null buffer, violating the invariant. -/
theorem reachable_buffer_invariant {α : Type} (m : MMatrix α)
    (h : ReachableNM m) : BufferInv m := by
  induction h with
  | empty =>
    exact ⟨fun _ => Or.inl rfl, fun h0 => absurd h0 (by simp [MMatrix.empty])⟩
  | construct r init hr ha =>
    constructor
    · intro h0
      refine Or.inr ?_
      simp only [MMatrix.construct] at h0 ⊢
      subst h0
      simp [allocLen]
    · intro h0
      exact ⟨(List.range (allocLen r)).map init, rfl, by simp [MMatrix.construct]⟩
  | set m i j v _ ih =>
    obtain ⟨ih0, ih1⟩ := ih
    constructor
    · intro h0
      rcases ih0 h0 with hb | hb <;> simp [MMatrix.set, hb]
    · intro h0
      obtain ⟨b, hb, hlen⟩ := ih1 h0
      exact ⟨b.set (encode i j) v, by simp [MMatrix.set, hb],
        by simp [MMatrix.set, hlen]⟩
  | dup m _ ih =>
    obtain ⟨ih0, ih1⟩ := ih
    constructor
    · intro h0
      rcases ih0 h0 with hb | hb <;> simp [MMatrix.duplicate, hb]
    · intro h0
      obtain ⟨b, hb, hlen⟩ := ih1 h0
      exact ⟨b, by simp [MMatrix.duplicate, hb], hlen⟩
  | moveTarget m _ ih =>
    exact ih

theorem reachable_buffer_invariant_witness :
    BufferInv (MMatrix.construct 2 (fun _ => (0 : Nat))) :=
  reachable_buffer_invariant _
    (ReachableNM.construct 2 (fun _ => (0 : Nat)) (by norm_num) (by decide))

/-- Claim C7: for every `uint32_t` rank `r`, the constructor's assertion
`(r & (r-1)) == 0` passes exactly when `r` is 0 or a power of 2;
construction fails fatally for every other rank. -/
theorem construct_assert_iff (r : Nat) (hr : r < 2 ^ 32) :
    assertOK r ↔ (r = 0 ∨ ∃ k, r = 2 ^ k) := by
  have h32 : (2 : Nat) ^ 32 = 4294967296 := by norm_num
  rcases Nat.eq_zero_or_pos r with h0 | hpos
  · subst h0
    simp only [assertOK, land32_zero_left]
    simp
  · have harg : (r + (2 ^ 32 - 1)) % 2 ^ 32 = r - 1 := by omega
    rw [assertOK, harg, land_pred_eq_zero_iff 32 r hpos (by omega)]
    constructor
    · intro h
      exact Or.inr h
    · rintro (h | h)
      · omega
      · exact h

theorem construct_assert_iff_witness :
    ((4 : Nat) < 2 ^ 32 ∧ (assertOK 4 ↔ ((4 : Nat) = 0 ∨ ∃ k, (4 : Nat) = 2 ^ k))) :=
  ⟨by norm_num, construct_assert_iff 4 (by norm_num)⟩

/-- Claim C8: at rank 65536 the coordinate pair `(0,0)` is valid
(`0 < rank`), yet writing 42 at `(0,0)` and reading `(0,0)` back does not
return 42 — the `uint32_t` allocation `new T[r*r]` wrapped to 0 elements,
so the access falls outside the buffer (modelled as `none`). -/
theorem write_read_overflow_rank65536 :
    ((MMatrix.construct 65536 (fun _ => (0 : Nat))).set 0 0 42).get 0 0 = none := by
  decide

/-- The value most recently written at coordinates `(i, j)` by a sequence
of writes applied in list order, if any. -/
def lastWrite {α : Type} : List (Nat × Nat × α) → Nat → Nat → Option α
  | [], _, _ => none
  | w :: rest, i, j =>
    match lastWrite rest i j with
    | some v => some v
    | none => if w.1 = i ∧ w.2.1 = j then some w.2.2 else none

/-- Applying a sequence of writes to a matrix, in list order. -/
def applyWrites {α : Type} (m : MMatrix α) (ws : List (Nat × Nat × α)) : MMatrix α :=
  ws.foldl (fun m w => m.set w.1 w.2.1 w.2.2) m

theorem set_rank {α : Type} (m : MMatrix α) (i j : Nat) (v : α) :
    (m.set i j v).rank = m.rank := rfl

theorem set_bufferInv {α : Type} (m : MMatrix α) (i j : Nat) (v : α)
    (h : BufferInv m) : BufferInv (m.set i j v) := by
  obtain ⟨h0, h1⟩ := h
  constructor
  · intro hr
    rcases h0 hr with hb | hb <;> simp [MMatrix.set, hb]
  · intro hr
    obtain ⟨b, hb, hlen⟩ := h1 hr
    exact ⟨b.set (encode i j) v, by simp [MMatrix.set, hb],
      by simp [MMatrix.set, hlen]⟩

/-- Reading after a single write: the written cell holds the new value
and every other in-range cell is untouched, for any rank `2^k < 2^16`
(so that the allocation did not overflow). -/
theorem get_set {α : Type} (m : MMatrix α) (i j i' j' : Nat) (v : α)
    (hk : ∃ k, m.rank = 2 ^ k) (hr : m.rank < 2 ^ 16) (hinv : BufferInv m)
    (hi : i < m.rank) (hj : j < m.rank) (hi' : i' < m.rank) (hj' : j' < m.rank) :
    (m.set i j v).get i' j' =
      if i = i' ∧ j = j' then some v else m.get i' j' := by
  obtain ⟨k, hkr⟩ := hk
  obtain ⟨b, hb, hlen⟩ := hinv.2 (by omega)
  have hall : allocLen m.rank = m.rank * m.rank := by
    have : m.rank * m.rank < 2 ^ 32 := by
      calc m.rank * m.rank < 2 ^ 16 * 2 ^ 16 :=
            Nat.mul_lt_mul_of_lt_of_lt hr hr
        _ = 2 ^ 32 := by norm_num
    simpa [allocLen] using Nat.mod_eq_of_lt this
  have hzlt : encode i j < b.length := by
    rw [hlen, hall, hkr]
    exact encode_lt k i j (by omega) (by omega)
  by_cases heq : i = i' ∧ j = j'
  · obtain ⟨hie, hje⟩ := heq
    subst hie; subst hje
    rw [if_pos ⟨rfl, rfl⟩]
    simp only [MMatrix.set, MMatrix.get, hb, Option.map_some, Option.bind_some]
    exact List.get?_set_eq_of_lt v hzlt
  · have hne : encode i j ≠ encode i' j' := by
      intro hc
      have c1 : i = i' := by
        rw [← pack_encode (i + j) i j le_rfl, hc,
          pack_encode (i' + j') i' j' le_rfl]
      have c2 : j = j' := by
        rw [← pack_encode_shift i j, hc, pack_encode_shift i' j']
      exact heq ⟨c1, c2⟩
    rw [if_neg heq]
    simp only [MMatrix.set, MMatrix.get, hb, Option.map_some, Option.bind_some]
    exact List.get?_set_ne v b hne

/-- Storage-order independence of random access for every matrix whose
rank is a power of two below `2^16` (the ranks for which the buffer
allocation is exact): after any sequence of in-range writes, reading at
in-range `(i, j)` returns the value most recently written there, or the
original cell value if `(i, j)` was never written. -/
theorem storage_order_independent {α : Type} (ws : List (Nat × Nat × α)) :
    ∀ (m : MMatrix α), (∃ k, m.rank = 2 ^ k) → m.rank < 2 ^ 16 → BufferInv m →
      (∀ w ∈ ws, w.1 < m.rank ∧ w.2.1 < m.rank) →
      ∀ i j, i < m.rank → j < m.rank →
        (applyWrites m ws).get i j =
          match lastWrite ws i j with
          | some v => some v
          | none => m.get i j := by
  induction ws with
  | nil =>
    intro m _ _ _ _ i j _ _
    rfl
  | cons w ws ih =>
    intro m hk hr hinv hws i j hi hj
    have hw := hws w (List.mem_cons_self w ws)
    have step : applyWrites m (w :: ws) =
        applyWrites (m.set w.1 w.2.1 w.2.2) ws := rfl
    rw [step, ih (m.set w.1 w.2.1 w.2.2) (by rw [set_rank]; exact hk)
      (by rw [set_rank]; exact hr) (set_bufferInv m _ _ _ hinv)
      (fun w' hw' => by rw [set_rank]; exact hws w' (List.mem_cons_of_mem w hw'))
      i j (by rw [set_rank]; exact hi) (by rw [set_rank]; exact hj)]
    show (match lastWrite ws i j with
        | some v => some v
        | none => (m.set w.1 w.2.1 w.2.2).get i j) = _
    cases hlast : lastWrite ws i j with
    | some v =>
      show some v = match lastWrite (w :: ws) i j with
        | some v => some v
        | none => m.get i j
      show some v = match
          (match lastWrite ws i j with
            | some v => some v
            | none => if w.1 = i ∧ w.2.1 = j then some w.2.2 else none) with
        | some v => some v
        | none => m.get i j
      rw [hlast]
    | none =>
      rw [get_set m w.1 w.2.1 i j w.2.2 hk hr hinv hw.1 hw.2 hi hj]
      show (if w.1 = i ∧ w.2.1 = j then some w.2.2 else m.get i j) = match
          (match lastWrite ws i j with
            | some v => some v
            | none => if w.1 = i ∧ w.2.1 = j then some w.2.2 else none) with
        | some v => some v
        | none => m.get i j
      rw [hlast]
      by_cases hm : w.1 = i ∧ w.2.1 = j
      · simp [hm]
      · simp [hm]

/-- For ranks below `2^16` (where the allocation did not overflow and
`std::copy` over `size()` elements stays inside both buffers),
`duplicate()` yields a matrix of the same rank with the same element at
every coordinate pair. -/
theorem duplicate_preserves {α : Type} (a : MMatrix α) (h : a.rank < 2 ^ 16) :
    a.duplicate.rank = a.rank ∧ ∀ i j, a.duplicate.get i j = a.get i j := by
  refine ⟨rfl, ?_⟩
  intro i j
  cases hb : a.buffer with
  | none => simp [MMatrix.duplicate, MMatrix.get, hb]
  | some b => simp [MMatrix.duplicate, MMatrix.get, hb]

/-- Claim C9: at the accepted rank 65536 the source buffer wrapped to 0
elements (cf. C5), so `duplicate()`'s `std::copy(begin(), end(),
ans.begin())` walks `size() = 2^32` cells of a zero-length allocation:
the duplicate of this matrix holds no element at the valid coordinates
`(0,0)` at all, so no element value is preserved there. -/
theorem duplicate_overflow_rank65536 :
    (MMatrix.construct 65536 (fun _ => (0 : Nat))).duplicate.rank = 65536 ∧
    (MMatrix.construct 65536 (fun _ => (0 : Nat))).duplicate.buffer = some [] ∧
    (MMatrix.construct 65536 (fun _ => (0 : Nat))).duplicate.get 0 0 = none := by
  decide

/-- Claim C10: for an iterator over a matrix buffer at offset `k`, if
`k < size()` then preincrement followed by predecrement returns it to
offset `k`, and if `0 < k ≤ size()` then predecrement followed by
preincrement returns it to offset `k`: forward and backward traversal
are mutually inverse. -/
theorem iter_inc_dec {α : Type} (m : MMatrix α) (k : Nat) :
    (k < m.size → (matrix_iterator.mk k).inc.dec = ⟨k⟩) ∧
    (0 < k → k ≤ m.size → (matrix_iterator.mk k).dec.inc = ⟨k⟩) := by
  constructor
  · intro _
    show matrix_iterator.mk (k + 1 - 1) = ⟨k⟩
    congr 1
  · intro hk _
    show matrix_iterator.mk (k - 1 + 1) = ⟨k⟩
    congr 1
    omega

theorem iter_inc_dec_witness :
    ((3 : Nat) < (MMatrix.construct 4 (fun _ => (0 : Nat))).size ∧
      (matrix_iterator.mk 3).inc.dec = ⟨3⟩) ∧
    ((matrix_iterator.mk 3).dec.inc = ⟨3⟩) :=
  ⟨⟨by decide,
    (iter_inc_dec (MMatrix.construct 4 (fun _ => (0 : Nat))) 3).1 (by decide)⟩,
    (iter_inc_dec (MMatrix.construct 4 (fun _ => (0 : Nat))) 3).2 (by decide) (by decide)⟩

end Morton
